import Mathlib

/-!
Verification of the photo-slideshow sequencing engine and its companion verifier
(`slideshow.py` and `project/VerificationSolution.py`).

Shallow embedding conventions:
* a text file is a `List (List Char)` of lines (newlines stripped; reading past
  end of file yields the empty line, matching `f.readline()` returning `""`);
* a Python `set` of tag strings is a `Finset (List Char)`;
* Python exceptions (`ValueError`, `IndexError`, `KeyError`) are modelled with
  `Except`/`Option` failure values;
* Python `int` is `Int`; list indices and slice bounds follow Python's
  clamping/negative-index rules where they can occur.
-/

/-- A token (a Python string without whitespace). -/
abbrev Tok := List Char

/-- Python `str.split()` on a line of space-separated text: split at the space
character and drop empty fields. -/
def pySplit (l : List Char) : List Tok :=
  (l.splitOn ' ').filter (· ≠ [])

/-- Python `str.strip()` for strings whose whitespace is the space character. -/
def pyStrip (l : List Char) : List Char :=
  ((l.dropWhile (· = ' ')).reverse.dropWhile (· = ' ')).reverse

/-- The numeric value of a decimal digit character, `none` otherwise. -/
def digit? (c : Char) : Option Nat :=
  if '0' ≤ c ∧ c ≤ '9' then some (c.toNat - '0'.toNat) else none

/-- Left-to-right accumulation of decimal digits. -/
def parseGo (acc : Nat) : List Char → Option Nat
  | [] => some acc
  | c :: cs =>
    match digit? c with
    | some d => parseGo (acc * 10 + d) cs
    | none => none

/-- Parse a nonempty all-digit string. -/
def parseDigits (l : List Char) : Option Nat :=
  match l with
  | [] => none
  | _ :: _ => parseGo 0 l

/-- Sign-and-digits part of Python `int`: one optional sign, then a nonempty
digit run. -/
def pyIntCore : List Char → Option Int
  | [] => none
  | c :: rest =>
    if c = '-' then (parseDigits rest).map (fun n => -(n : Int))
    else if c = '+' then (parseDigits rest).map (fun n => (n : Int))
    else (parseDigits (c :: rest)).map (fun n => (n : Int))

/-- Python `int(s)`: strip surrounding whitespace, allow one optional sign,
then a nonempty digit run.  Raising `ValueError` is modelled by `none`. -/
def pyInt (l : List Char) : Option Int :=
  pyIntCore (pyStrip l)

/-- The decimal digit character for `d < 10`. -/
def digitChar (d : Nat) : Char :=
  match d with
  | 0 => '0' | 1 => '1' | 2 => '2' | 3 => '3' | 4 => '4'
  | 5 => '5' | 6 => '6' | 7 => '7' | 8 => '8' | 9 => '9'
  | _ => '*'

/-- Decimal printing accumulator: digits of `n` followed by `acc`. -/
def printNatAux (n : Nat) (acc : List Char) : List Char :=
  if h : n < 10 then digitChar n :: acc
  else printNatAux (n / 10) (digitChar (n % 10) :: acc)
termination_by n
decreasing_by
  exact Nat.div_lt_self (by omega) (by omega)

/-- Python `str(n)` for a natural number. -/
def printNat (n : Nat) : List Char := printNatAux n []

/-- Python `str(i)` for an integer. -/
def printInt (i : Int) : List Char :=
  if i < 0 then '-' :: printNat i.natAbs else printNat i.toNat

/-- `combine a n`: the number whose decimal digits are those of `a` followed by
those of `n` (helper for the print/parse round trip). -/
def combine (a n : Nat) : Nat :=
  if h : n < 10 then a * 10 + n
  else combine a (n / 10) * 10 + n % 10
termination_by n
decreasing_by
  exact Nat.div_lt_self (by omega) (by omega)

theorem digitChar_spec {d : Nat} (h : d < 10) :
    digit? (digitChar d) = some d ∧ digitChar d ≠ ' ' ∧
      digitChar d ≠ '-' ∧ digitChar d ≠ '+' := by
  interval_cases d <;> exact ⟨rfl, by decide, by decide, by decide⟩

theorem printNatAux_cons (n : Nat) (acc : List Char) :
    ∃ d rest, printNatAux n acc = digitChar d :: rest ∧ d < 10 := by
  induction n using Nat.strong_induction_on generalizing acc with
  | _ n ih =>
    rw [printNatAux]
    by_cases h : n < 10
    · exact ⟨n, acc, by simp [h], h⟩
    · simp only [h, dite_false]
      exact ih (n / 10) (Nat.div_lt_self (by omega) (by omega)) _

theorem parseGo_printNatAux (n : Nat) :
    ∀ acc a, parseGo a (printNatAux n acc) = parseGo (combine a n) acc := by
  induction n using Nat.strong_induction_on with
  | _ n ih =>
    intro acc a
    rw [printNatAux, combine]
    by_cases h : n < 10
    · simp only [h, dite_true, parseGo, (digitChar_spec h).1]
    · simp only [h, dite_false]
      rw [ih (n / 10) (Nat.div_lt_self (by omega) (by omega))]
      simp only [parseGo, (digitChar_spec (Nat.mod_lt n (by omega))).1]

theorem combine_zero (n : Nat) : combine 0 n = n := by
  induction n using Nat.strong_induction_on with
  | _ n ih =>
    rw [combine]
    by_cases h : n < 10
    · simp [h]
    · simp only [h, dite_false, ih (n / 10) (Nat.div_lt_self (by omega) (by omega))]
      omega

theorem printNat_ne_nil (n : Nat) : printNat n ≠ [] := by
  obtain ⟨d, rest, he, _⟩ := printNatAux_cons n []
  unfold printNat
  rw [he]
  simp

theorem parseDigits_eq_parseGo {l : List Char} (h : l ≠ []) :
    parseDigits l = parseGo 0 l := by
  cases l with
  | nil => exact absurd rfl h
  | cons c cs => rfl

theorem parseDigits_printNat (n : Nat) : parseDigits (printNat n) = some n := by
  rw [parseDigits_eq_parseGo (printNat_ne_nil n)]
  show parseGo 0 (printNatAux n []) = some n
  rw [parseGo_printNatAux n [] 0, combine_zero]
  rfl

theorem printNat_no_space (n : Nat) : ∀ c ∈ printNat n, c ≠ ' ' := by
  unfold printNat
  suffices h : ∀ m acc, (∀ c ∈ acc, c ≠ ' ') → ∀ c ∈ printNatAux m acc, c ≠ ' ' by
    exact h n [] (by simp)
  intro m
  induction m using Nat.strong_induction_on with
  | _ m ih =>
    intro acc hacc c hc
    rw [printNatAux] at hc
    by_cases h : m < 10
    · simp only [h, dite_true, List.mem_cons] at hc
      rcases hc with rfl | hc
      · exact (digitChar_spec h).2.1
      · exact hacc c hc
    · simp only [h, dite_false] at hc
      refine ih (m / 10) (Nat.div_lt_self (by omega) (by omega)) _ ?_ c hc
      intro c' hc'
      rcases List.mem_cons.1 hc' with rfl | hc'
      · exact (digitChar_spec (Nat.mod_lt m (by omega))).2.1
      · exact hacc c' hc'

theorem pyStrip_of_no_space {l : List Char} (h : ∀ c ∈ l, c ≠ ' ') :
    pyStrip l = l := by
  have key : ∀ m : List Char, (∀ c ∈ m, c ≠ ' ') → m.dropWhile (· = ' ') = m := by
    intro m hm
    cases m with
    | nil => rfl
    | cons c cs =>
      rw [List.dropWhile_cons]
      simp [hm c (List.mem_cons_self c cs)]
  unfold pyStrip
  rw [key l h, key l.reverse (fun c hc => h c (List.mem_reverse.1 hc)), List.reverse_reverse]

theorem printInt_no_space (i : Int) : ∀ c ∈ printInt i, c ≠ ' ' := by
  unfold printInt
  split
  · intro c hc
    rcases List.mem_cons.1 hc with rfl | hc
    · decide
    · exact printNat_no_space _ c hc
  · exact printNat_no_space _

theorem printInt_ne_nil (i : Int) : printInt i ≠ [] := by
  unfold printInt
  split
  · simp
  · exact printNat_ne_nil _

/-- `str`/`int` round trip for natural numbers. -/
theorem pyInt_printNat (n : Nat) : pyInt (printNat n) = some (n : Int) := by
  obtain ⟨d, rest, he, hd⟩ := printNatAux_cons n []
  have he2 : printNat n = digitChar d :: rest := he
  unfold pyInt
  rw [pyStrip_of_no_space (printNat_no_space n), he2]
  simp only [pyIntCore]
  rw [if_neg (digitChar_spec hd).2.2.1, if_neg (digitChar_spec hd).2.2.2, ← he2,
    parseDigits_printNat]
  rfl

/-- `str`/`int` round trip for integers. -/
theorem pyInt_printInt (i : Int) : pyInt (printInt i) = some i := by
  rw [printInt]
  split
  · next hneg =>
    have hstrip : pyStrip ('-' :: printNat i.natAbs) = '-' :: printNat i.natAbs := by
      refine pyStrip_of_no_space ?_
      intro c hc
      rcases List.mem_cons.1 hc with rfl | hc
      · decide
      · exact printNat_no_space _ c hc
    unfold pyInt
    rw [hstrip]
    simp only [pyIntCore]
    rw [if_pos trivial, parseDigits_printNat]
    show some (-(i.natAbs : Int)) = some i
    congr 1
    omega
  · next hpos =>
    rw [pyInt_printNat]
    congr 1
    omega

/-! ## Data model (`Photo` dataclass, shared by both source files) -/

/-- An item record. -/
structure Photo where
  id : Int
  is_horizontal : Bool
  tags : Finset Tok
deriving DecidableEq

/-- Python exceptions raised by the parsing code. -/
inductive PyErr
  | valueError
  | indexError
deriving DecidableEq

/-- Python slice-bound normalisation for a list of length `len`:
negative bounds count from the end, and both are clamped to `[0, len]`. -/
def pySliceIdx (len : Nat) (i : Int) : Nat :=
  if i < 0 then len - i.natAbs else min i.toNat len

/-- Python `l[a:b]`. -/
def pySlice (l : List α) (a b : Int) : List α :=
  (l.take (pySliceIdx l.length b)).drop (pySliceIdx l.length a)

/-! ## `read_input` from `slideshow.py` -/

/-- One loop iteration of `read_input` on record line `i`:
`line = f.readline().strip().split()`, `is_horizontal = line[0] == 'H'`,
`n_tags = int(line[1])`, `tags = set(line[2:2 + n_tags])`.
A missing `line[0]`/`line[1]` raises `IndexError`; a non-numeric count raises
`ValueError`. -/
def readPhoto (line : List Char) (i : Nat) : Except PyErr Photo :=
  match pySplit line with
  | [] => .error .indexError
  | [_] => .error .indexError
  | t0 :: t1 :: rest =>
    match pyInt t1 with
    | none => .error .valueError
    | some n_tags =>
      .ok { id := (i : Int), is_horizontal := t0 == ['H']
            tags := (pySlice (t0 :: t1 :: rest) 2 (2 + n_tags)).toFinset }

/-- The `for i in range(n)` loop of `read_input`, reading records
`i, i+1, ...` (record `i` sits on file line `i + 1`). -/
def readPhotos (file : List (List Char)) (i count : Nat) : Except PyErr (List Photo) :=
  match count with
  | 0 => .ok []
  | c + 1 => do
    let p ← readPhoto (file.getD (i + 1) []) i
    let rest ← readPhotos file (i + 1) c
    .ok (p :: rest)

/-- `read_input(filepath)` from `slideshow.py`: `n = int(f.readline())`, then
`n` records, ids assigned `0..n-1` in order.  The declared tag count is
trusted: `tags = set(line[2:2 + n_tags])`. -/
def read_input (file : List (List Char)) : Except PyErr (List Photo) :=
  match pyInt (file.getD 0 []) with
  | none => .error .valueError
  | some n => readPhotos file 0 n.toNat

/-! ## `SolutionChecker` from `project/VerificationSolution.py` -/

/-- The verifier object: `self.photos = {photo.id: photo for photo in photos}`.
We keep the underlying list; dictionary lookup is `SolutionChecker.find`
(later comprehension entries overwrite earlier ones, hence the `reverse`). -/
structure SolutionChecker where
  photos : List Photo
deriving DecidableEq

/-- `self.photos[key]` dictionary lookup, `none` when the key is absent. -/
def SolutionChecker.find (c : SolutionChecker) (key : Int) : Option Photo :=
  c.photos.reverse.find? (fun p => p.id == key)

/-- One record of `SolutionChecker.read_input_file`: unlike `read_input`, the
declared tag count on the line is ignored and `tags = set(line[2:])` consumes
every remaining token; `line[1]` is never parsed. -/
def readPhotoV (line : List Char) (i : Nat) : Except PyErr Photo :=
  match pySplit line with
  | [] => .error .indexError
  | t0 :: rest => .ok { id := (i : Int), is_horizontal := t0 == ['H']
                        tags := (rest.drop 1).toFinset }

/-- The record loop of `SolutionChecker.read_input_file`. -/
def readPhotosV (file : List (List Char)) (i count : Nat) : Except PyErr (List Photo) :=
  match count with
  | 0 => .ok []
  | c + 1 => do
    let p ← readPhotoV (file.getD (i + 1) []) i
    let rest ← readPhotosV file (i + 1) c
    .ok (p :: rest)

/-- `SolutionChecker.read_input_file(filepath)`. -/
def SolutionChecker.read_input_file (file : List (List Char)) : Except PyErr (List Photo) :=
  match pyInt (file.getD 0 []) with
  | none => .error .valueError
  | some n => readPhotosV file 0 n.toNat

/-- `list(map(int, line))` over the tokens of a slide line
(`ValueError` when a token is not an integer). -/
def parseIds : List Tok → Except PyErr (List Int)
  | [] => .ok []
  | t :: ts =>
    match pyInt t with
    | none => .error .valueError
    | some v => do
      let rest ← parseIds ts
      .ok (v :: rest)

/-- The slide loop of `SolutionChecker.read_solution_file`: each of `count`
lines must hold 1 or 2 ids (else `ValueError`), slide `k` on file line
`k + 1`. -/
def readSlides (file : List (List Char)) (i count : Nat) : Except PyErr (List (List Int)) :=
  match count with
  | 0 => .ok []
  | c + 1 =>
    let toks := pySplit (file.getD (i + 1) [])
    if toks.length = 1 ∨ toks.length = 2 then do
      let ids ← parseIds toks
      let rest ← readSlides file (i + 1) c
      .ok (ids :: rest)
    else .error .valueError

/-- `SolutionChecker.read_solution_file(filepath)`. -/
def SolutionChecker.read_solution_file (file : List (List Char)) : Except PyErr (List (List Int)) :=
  match pyInt (file.getD 0 []) with
  | none => .error .valueError
  | some n => readSlides file 0 n.toNat

/-- The sequence file written by `main` in `slideshow.py`:
`f.write(f"{len(solution)}\n")`, then one line `" ".join(map(str, slide))`
per slide. -/
def writeSolution (slides : List (List Int)) : List (List Char) :=
  printNat slides.length :: slides.map (fun s => [' '].intercalate (s.map printInt))

/-! ### Round-trip lemmas for the sequence-file format -/

theorem pySplit_intercalate (toks : List Tok) (hne : toks ≠ [])
    (hnosp : ∀ t ∈ toks, ∀ c ∈ t, c ≠ ' ') (hnn : ∀ t ∈ toks, t ≠ []) :
    pySplit ([' '].intercalate toks) = toks := by
  unfold pySplit
  rw [List.splitOn_intercalate toks ' ' (fun l hl hmem => hnosp l hl ' ' hmem rfl) hne]
  exact List.filter_eq_self.2 (fun t ht => by simpa using hnn t ht)

theorem pySplit_join_printInt (s : List Int) (hs : s ≠ []) :
    pySplit ([' '].intercalate (s.map printInt)) = s.map printInt := by
  refine pySplit_intercalate _ (by simpa using hs) ?_ ?_
  · intro t ht c hc
    obtain ⟨v, _, rfl⟩ := List.mem_map.1 ht
    exact printInt_no_space v c hc
  · intro t ht
    obtain ⟨v, _, rfl⟩ := List.mem_map.1 ht
    exact printInt_ne_nil v

theorem parseIds_printInt (s : List Int) : parseIds (s.map printInt) = .ok s := by
  induction s with
  | nil => rfl
  | cons v vs ih =>
    simp only [List.map_cons, parseIds, pyInt_printInt, ih]
    rfl

theorem readSlides_writeSolution (slides : List (List Int))
    (h : ∀ s ∈ slides, s.length = 1 ∨ s.length = 2) :
    ∀ (tail : List (List Int)) (i : Nat), slides.drop i = tail →
      readSlides (writeSolution slides) i tail.length = .ok tail := by
  intro tail
  induction tail with
  | nil => intro i _; rfl
  | cons s rest ih =>
    intro i hdrop
    have hget : slides[i]? = some s := by
      have h0 : (slides.drop i)[0]? = some s := by rw [hdrop]; simp
      rwa [List.getElem?_drop, Nat.add_zero] at h0
    have hmem : s ∈ slides := by
      obtain ⟨hlt, rfl⟩ := List.getElem?_eq_some_iff.mp hget
      exact List.getElem_mem hlt
    have hs12 := h s hmem
    have hs_ne : s ≠ [] := by
      intro h0
      rw [h0] at hs12
      simp at hs12
    have hline : (writeSolution slides).getD (i + 1) [] =
        [' '].intercalate (s.map printInt) := by
      unfold writeSolution
      rw [List.getD_cons_succ, List.getD_eq_getElem?_getD, List.getElem?_map, hget]
      rfl
    have hdrop' : slides.drop (i + 1) = rest := by
      have : slides.drop (i + 1) = (slides.drop i).drop 1 := by
        rw [List.drop_drop]
      rw [this, hdrop]
      rfl
    show readSlides (writeSolution slides) i (rest.length + 1) = .ok (s :: rest)
    rw [readSlides]
    simp only [hline, pySplit_join_printInt s hs_ne, List.length_map]
    rw [if_pos hs12, parseIds_printInt, ih (i + 1) hdrop']
    rfl

/-- C7: writing a sequence with `main`'s sequence-file format and reading it
back with `read_solution_file` is the identity on sequences whose slides
each hold 1 or 2 ids. -/
theorem read_write_roundtrip (slides : List (List Int))
    (h : ∀ s ∈ slides, s.length = 1 ∨ s.length = 2) :
    SolutionChecker.read_solution_file (writeSolution slides) = .ok slides := by
  unfold SolutionChecker.read_solution_file
  have h0 : (writeSolution slides).getD 0 [] = printNat slides.length := rfl
  rw [h0, pyInt_printNat]
  have := readSlides_writeSolution slides h slides 0 (by rfl)
  simpa using this

/-! ## Transition scoring -/

/-- `get_transition_score(tags1, tags2)` from `slideshow.py`:
`min(len(tags1 & tags2), len(tags1 - tags2), len(tags2 - tags1))`. -/
def get_transition_score (tags1 tags2 : Finset Tok) : Nat :=
  min ((tags1 ∩ tags2).card) (min ((tags1 \ tags2).card) ((tags2 \ tags1).card))

/-- `SolutionChecker.compute_transition_score` from `VerificationSolution.py`:
`min(len(tags1 & tags2), len(tags1 - tags2), len(tags2 - tags1))`. -/
def SolutionChecker.compute_transition_score (tags1 tags2 : Finset Tok) : Nat :=
  min ((tags1 ∩ tags2).card) (min ((tags1 \ tags2).card) ((tags2 \ tags1).card))

/-- `SolutionChecker.get_slide_tags`: union of `self.photos[pid].tags` over
the slide's ids; the `KeyError` Python raises on an unknown id is modelled by
`none`. -/
def SolutionChecker.get_slide_tags (c : SolutionChecker) : List Int → Option (Finset Tok)
  | [] => some ∅
  | pid :: rest => do
    let p ← c.find pid
    let r ← SolutionChecker.get_slide_tags c rest
    pure (p.tags ∪ r)

/-- The `for i in range(1, len(slides))` accumulation loop of
`compute_score`. -/
def scoreLoop (c : SolutionChecker) (prev : Finset Tok) (acc : Nat) :
    List (List Int) → Option Nat
  | [] => some acc
  | s :: rest => do
    let cur ← c.get_slide_tags s
    scoreLoop c cur (acc + SolutionChecker.compute_transition_score prev cur) rest

/-- `SolutionChecker.compute_score`: 0 for an empty sequence, otherwise the
accumulated sum of transition scores between consecutive slides. -/
def SolutionChecker.compute_score (c : SolutionChecker) (slides : List (List Int)) :
    Option Nat :=
  match slides with
  | [] => some 0
  | s0 :: rest => do
    let t0 ← c.get_slide_tags s0
    scoreLoop c t0 0 rest

/-- Tag sets of all slides in order (helper for stating C6). -/
def mapTags (c : SolutionChecker) : List (List Int) → Option (List (Finset Tok))
  | [] => some []
  | s :: rest => do
    let t ← c.get_slide_tags s
    let ts ← mapTags c rest
    pure (t :: ts)

/-- The specification formula: sum of `score(unit[i], unit[i+1])` over all
adjacent pairs. -/
def adjSum : List (Finset Tok) → Nat
  | [] => 0
  | [_] => 0
  | a :: b :: rest => SolutionChecker.compute_transition_score a b + adjSum (b :: rest)

theorem scoreLoop_spec (c : SolutionChecker) :
    ∀ (rest : List (List Int)) (ts : List (Finset Tok)) (prev : Finset Tok) (acc : Nat),
      mapTags c rest = some ts →
      scoreLoop c prev acc rest = some (acc + adjSum (prev :: ts)) := by
  intro rest
  induction rest with
  | nil =>
    intro ts prev acc h
    simp only [mapTags, Option.some.injEq] at h
    subst h
    simp [scoreLoop, adjSum]
  | cons s rr ih =>
    intro ts prev acc h
    simp only [mapTags, Option.bind_eq_bind, bind, Option.bind] at h
    cases hs : c.get_slide_tags s with
    | none => rw [hs] at h; exact absurd h (by simp)
    | some t =>
      rw [hs] at h
      cases hm : mapTags c rr with
      | none => rw [hm] at h; exact absurd h (by simp)
      | some ts' =>
        rw [hm] at h
        simp only [Option.pure_def, Option.some.injEq] at h
        subst h
        simp only [scoreLoop, Option.bind_eq_bind, hs, Option.some_bind]
        rw [ih ts' t _ hm]
        show some _ = some (acc + (SolutionChecker.compute_transition_score prev t + adjSum (t :: ts')))
        rw [Nat.add_assoc]

theorem mapTags_length (c : SolutionChecker) :
    ∀ (slides : List (List Int)) (ts : List (Finset Tok)),
      mapTags c slides = some ts → ts.length = slides.length := by
  intro slides
  induction slides with
  | nil =>
    intro ts h
    simp only [mapTags, Option.some.injEq] at h
    subst h
    rfl
  | cons s rest ih =>
    intro ts h
    simp only [mapTags, Option.bind_eq_bind] at h
    cases hs : c.get_slide_tags s with
    | none => rw [hs] at h; simp at h
    | some t =>
      rw [hs] at h
      cases hm : mapTags c rest with
      | none => rw [hm] at h; simp at h
      | some ts' =>
        rw [hm] at h
        simp only [Option.some_bind, Option.pure_def, Option.some.injEq] at h
        subst h
        simp [ih ts' hm]

theorem adjSum_short : ∀ ts : List (Finset Tok), ts.length ≤ 1 → adjSum ts = 0 := by
  intro ts h
  match ts with
  | [] => rfl
  | [_] => rfl
  | a :: b :: r => simp at h

/-- C6: `compute_score` equals the sum of `compute_transition_score` over all
adjacent slide pairs (the tag sets being those of `get_slide_tags`), and is 0
for sequences of length 0 or 1.  The hypothesis `mapTags c slides = some ts`
says every referenced id is in the catalog — otherwise the Python code raises
`KeyError` instead of returning. -/
theorem compute_score_adjacent_sum (c : SolutionChecker) (slides : List (List Int))
    (ts : List (Finset Tok)) (h : mapTags c slides = some ts) :
    c.compute_score slides = some (adjSum ts) ∧
      (slides.length ≤ 1 → c.compute_score slides = some 0) := by
  have hmain : c.compute_score slides = some (adjSum ts) := by
    cases slides with
    | nil =>
      simp only [mapTags, Option.some.injEq] at h
      subst h
      rfl
    | cons s0 rest =>
      simp only [mapTags, Option.bind_eq_bind] at h
      cases hs : c.get_slide_tags s0 with
      | none => rw [hs] at h; simp at h
      | some t0 =>
        rw [hs] at h
        cases hm : mapTags c rest with
        | none => rw [hm] at h; simp at h
        | some ts' =>
          rw [hm] at h
          simp only [Option.some_bind, Option.pure_def, Option.some.injEq] at h
          subst h
          simp only [SolutionChecker.compute_score, Option.bind_eq_bind, hs, Option.some_bind]
          rw [scoreLoop_spec c rest ts' t0 0 hm, Nat.zero_add]
  refine ⟨hmain, fun hlen => ?_⟩
  rw [hmain, adjSum_short ts (by rw [mapTags_length c slides ts h]; exact hlen)]

/-- Witness for C6 on the spec's own end-to-end example (items 0 and 1, both
wide, tags `{a,b}` and `{b,c}`; the sequence `[[0],[1]]` scores 1). -/
theorem compute_score_adjacent_sum_witness :
    (SolutionChecker.mk [⟨0, true, {['a'], ['b']}⟩, ⟨1, true, {['b'], ['c']}⟩]).compute_score
        [[0], [1]] = some (adjSum [{['a'], ['b']}, {['b'], ['c']}]) :=
  (compute_score_adjacent_sum _ [[0], [1]] [{['a'], ['b']}, {['b'], ['c']}] (by decide)).1

/-- C1: the transition score is `min(common, onlyA, onlyB)`, symmetric,
bounded by `min(|A|, |B|)`, and 0 when the sets are equal or one is empty. -/
theorem transition_score_properties (A B : Finset Tok) :
    get_transition_score A B =
        min ((A ∩ B).card) (min ((A \ B).card) ((B \ A).card)) ∧
      get_transition_score A B = get_transition_score B A ∧
      get_transition_score A B ≤ min A.card B.card ∧
      (A = B → get_transition_score A B = 0) ∧
      ((A = ∅ ∨ B = ∅) → get_transition_score A B = 0) := by
  refine ⟨rfl, ?_, ?_, ?_, ?_⟩
  · unfold get_transition_score
    rw [Finset.inter_comm]
    congr 1
    exact Nat.min_comm _ _
  · refine le_min ?_ ?_
    · exact le_trans (min_le_left _ _) (Finset.card_le_card Finset.inter_subset_left)
    · exact le_trans (min_le_left _ _) (Finset.card_le_card Finset.inter_subset_right)
  · rintro rfl
    simp [get_transition_score]
  · rintro (rfl | rfl) <;> simp [get_transition_score]

/-- Witness for C1: equal-set and empty-set cases at concrete inputs. -/
theorem transition_score_properties_witness :
    get_transition_score {['a']} {['a']} = 0 ∧ get_transition_score ∅ {['b']} = 0 :=
  ⟨(transition_score_properties {['a']} {['a']}).2.2.2.1 rfl,
   (transition_score_properties ∅ {['b']}).2.2.2.2 (Or.inl rfl)⟩

/-- C10: the optimizer's scorer (`get_transition_score`) and the verifier's
scorer (`compute_transition_score`) agree on every pair of tag sets. -/
theorem transition_scorers_agree :
    ∀ tags1 tags2 : Finset Tok,
      get_transition_score tags1 tags2 =
        SolutionChecker.compute_transition_score tags1 tags2 :=
  fun _ _ => rfl

/-! ## The feasibility validator (`SolutionChecker.is_valid_solution`) -/

/-- Structured violation results of `is_valid_solution`: the `(False, message)`
pairs, carrying the data each message interpolates (the reuse and unknown-id
messages name the photo id, the others the slide index). -/
inductive Violation
  | badSize (slide : Nat) (len : Nat)
  | reused (photoId : Int)
  | unknownId (photoId : Int)
  | singleVertical (slide : Nat)
  | pairHorizontal (slide : Nat)
deriving DecidableEq

/-- `self.photos[pid].is_horizontal`.  In `is_valid_solution` this is only
evaluated after the `photo_id not in self.photos` check, so the `getD`
default is unreachable there. -/
def SolutionChecker.isHoriz (c : SolutionChecker) (pid : Int) : Bool :=
  ((c.find pid).map Photo.is_horizontal).getD false

/-- The inner `for photo_id in slide` loop of `is_valid_solution`: reuse
check, then membership check, then `used_photos.add(photo_id)`. -/
def checkIds (c : SolutionChecker) (used : List Int) : List Int → Except Violation (List Int)
  | [] => .ok used
  | pid :: rest =>
    if pid ∈ used then .error (.reused pid)
    else if (c.find pid).isNone then .error (.unknownId pid)
    else checkIds c (pid :: used) rest

/-- The `for i, slide in enumerate(slides)` loop of `is_valid_solution`:
per slide, in order: size check, id checks, single-slide orientation check,
pair-slide orientation check. -/
def checkSlides (c : SolutionChecker) (used : List Int) (i : Nat) :
    List (List Int) → Option Violation
  | [] => none
  | s :: rest =>
    if ¬(s.length = 1 ∨ s.length = 2) then some (.badSize i s.length)
    else
      match checkIds c used s with
      | .error v => some v
      | .ok used' =>
        if s.length = 1 ∧ c.isHoriz (s.getD 0 0) = false then some (.singleVertical i)
        else if s.length = 2 ∧ (c.isHoriz (s.getD 0 0) || c.isHoriz (s.getD 1 0)) then
          some (.pairHorizontal i)
        else checkSlides c used' (i + 1) rest

/-- `SolutionChecker.is_valid_solution`; `none` models
`(True, "Solution valide.")`, `some v` models `(False, message)`. -/
def SolutionChecker.is_valid_solution (c : SolutionChecker) (slides : List (List Int)) :
    Option Violation :=
  checkSlides c [] 0 slides

example :
    (SolutionChecker.mk [⟨0, false, ∅⟩]).is_valid_solution [[0, 0]] =
      some (.reused 0) := by decide

example :
    (SolutionChecker.mk [⟨0, true, ∅⟩, ⟨1, false, ∅⟩, ⟨2, false, ∅⟩]).is_valid_solution
      [[0], [1, 2]] = none := by decide

/-- Per-slide recursive form of the feasibility conditions, threading the
already-used ids exactly as `used_photos` does. -/
def SpecAux (c : SolutionChecker) (used : List Int) : List (List Int) → Prop
  | [] => True
  | s :: rest =>
    (s.length = 1 ∨ s.length = 2) ∧ s.Nodup ∧ (∀ pid ∈ s, pid ∉ used) ∧
      (∀ pid ∈ s, (c.find pid).isSome) ∧
      (s.length = 1 → c.isHoriz (s.getD 0 0) = true) ∧
      (s.length = 2 → c.isHoriz (s.getD 0 0) = false ∧ c.isHoriz (s.getD 1 0) = false) ∧
      SpecAux c (s.reverse ++ used) rest

theorem checkIds_ok (c : SolutionChecker) :
    ∀ (s used : List Int), s.Nodup → (∀ pid ∈ s, pid ∉ used) →
      (∀ pid ∈ s, (c.find pid).isSome) →
      checkIds c used s = .ok (s.reverse ++ used) := by
  intro s
  induction s with
  | nil => intro used _ _ _; rfl
  | cons pid rest ih =>
    intro used hnd hfresh hknown
    have hk := hknown pid (List.mem_cons_self _ _)
    have h2 : ¬((c.find pid).isNone = true) := by
      intro hno
      rw [Option.isNone_iff_eq_none.1 hno] at hk
      simp at hk
    simp only [checkIds]
    rw [if_neg (hfresh pid (List.mem_cons_self _ _)), if_neg h2]
    have hpidrest : pid ∉ rest := (List.nodup_cons.1 hnd).1
    rw [ih (pid :: used) (List.nodup_cons.1 hnd).2 ?fresh ?known]
    · simp [List.reverse_cons, List.append_assoc]
    case fresh =>
      intro q hq
      rw [List.mem_cons]
      rintro (rfl | hqu)
      · exact hpidrest hq
      · exact hfresh q (List.mem_cons_of_mem _ hq) hqu
    case known =>
      intro q hq
      exact hknown q (List.mem_cons_of_mem _ hq)

theorem checkIds_ok_inv (c : SolutionChecker) :
    ∀ (s used u' : List Int), checkIds c used s = .ok u' →
      s.Nodup ∧ (∀ pid ∈ s, pid ∉ used) ∧ (∀ pid ∈ s, (c.find pid).isSome) ∧
        u' = s.reverse ++ used := by
  intro s
  induction s with
  | nil =>
    intro used u' h
    simp only [checkIds] at h
    injection h with h
    exact ⟨List.nodup_nil, by simp, by simp, by rw [← h]; simp⟩
  | cons pid rest ih =>
    intro used u' h
    simp only [checkIds] at h
    by_cases h1 : pid ∈ used
    · rw [if_pos h1] at h
      exact Except.noConfusion h
    · rw [if_neg h1] at h
      by_cases h2 : (c.find pid).isNone = true
      · rw [if_pos h2] at h
        exact Except.noConfusion h
      · rw [if_neg h2] at h
        obtain ⟨hnd, hfresh, hknown, hu⟩ := ih (pid :: used) u' h
        have hpk : (c.find pid).isSome := by
          cases hf : c.find pid with
          | none => exact absurd (by rw [hf]; rfl) h2
          | some p => rfl
        refine ⟨?_, ?_, ?_, ?_⟩
        · exact List.nodup_cons.2
            ⟨fun hmem => (hfresh pid hmem) (List.mem_cons_self _ _), hnd⟩
        · intro q hq
          rcases List.mem_cons.1 hq with rfl | hq
          · exact h1
          · exact fun hqu => hfresh q hq (List.mem_cons_of_mem _ hqu)
        · intro q hq
          rcases List.mem_cons.1 hq with rfl | hq
          · exact hpk
          · exact hknown q hq
        · rw [hu]
          simp [List.reverse_cons, List.append_assoc]

theorem checkSlides_eq_none_iff (c : SolutionChecker) :
    ∀ (slides : List (List Int)) (used : List Int) (i : Nat),
      checkSlides c used i slides = none ↔ SpecAux c used slides := by
  intro slides
  induction slides with
  | nil => intro used i; simp [checkSlides, SpecAux]
  | cons s rest ih =>
    intro used i
    simp only [checkSlides, SpecAux]
    by_cases hsz : s.length = 1 ∨ s.length = 2
    · rw [if_neg (not_not_intro hsz)]
      cases hci : checkIds c used s with
      | error v =>
        constructor
        · intro habs
          exact Option.noConfusion habs
        · rintro ⟨h1, hnd, hfresh, hknown, -, -, -⟩
          rw [checkIds_ok c s used hnd hfresh hknown] at hci
          exact Except.noConfusion hci
      | ok used' =>
        obtain ⟨hnd, hfresh, hknown, hu⟩ := checkIds_ok_inv c s used used' hci
        subst hu
        dsimp only
        by_cases hv : s.length = 1 ∧ c.isHoriz (s.getD 0 0) = false
        · rw [if_pos hv]
          constructor
          · intro habs
            exact Option.noConfusion habs
          · rintro ⟨-, -, -, -, hsingle, -, -⟩
            have ht := hsingle hv.1
            rw [ht] at hv
            exact absurd hv.2 (by decide)
        · rw [if_neg hv]
          by_cases hp : s.length = 2 ∧ (c.isHoriz (s.getD 0 0) || c.isHoriz (s.getD 1 0)) = true
          · rw [if_pos hp]
            constructor
            · intro habs
              exact Option.noConfusion habs
            · rintro ⟨-, -, -, -, -, hpair, -⟩
              obtain ⟨hb0, hb1⟩ := hpair hp.1
              rw [hb0, hb1] at hp
              exact absurd hp.2 (by decide)
          · rw [if_neg hp, ih (s.reverse ++ used) (i + 1)]
            constructor
            · intro hrest
              refine ⟨hsz, hnd, hfresh, hknown, ?_, ?_, hrest⟩
              · intro h1
                by_contra hne
                refine hv ⟨h1, ?_⟩
                revert hne
                cases c.isHoriz (s.getD 0 0) <;> simp
              · intro h2
                have hor : (c.isHoriz (s.getD 0 0) || c.isHoriz (s.getD 1 0)) = false := by
                  by_contra hne
                  refine hp ⟨h2, ?_⟩
                  revert hne
                  cases c.isHoriz (s.getD 0 0) <;> cases c.isHoriz (s.getD 1 0) <;> simp
                revert hor
                cases c.isHoriz (s.getD 0 0) <;> cases c.isHoriz (s.getD 1 0) <;> simp
            · rintro ⟨-, -, -, -, -, -, hrest⟩
              exact hrest
    · rw [if_pos hsz]
      constructor
      · intro habs
        exact Option.noConfusion habs
      · rintro ⟨h1, -⟩
        exact absurd h1 hsz

/-- The flat specification-side feasibility predicate: slide sizes 1 or 2,
no id occurring twice anywhere in the sequence, every id in the catalog,
single slides horizontal, pair slides fully vertical. -/
def ValidSolutionSpec (c : SolutionChecker) (slides : List (List Int)) : Prop :=
  (∀ s ∈ slides, s.length = 1 ∨ s.length = 2) ∧
    slides.flatten.Nodup ∧
    (∀ pid ∈ slides.flatten, (c.find pid).isSome) ∧
    (∀ s ∈ slides, s.length = 1 → c.isHoriz (s.getD 0 0) = true) ∧
    (∀ s ∈ slides, s.length = 2 →
      c.isHoriz (s.getD 0 0) = false ∧ c.isHoriz (s.getD 1 0) = false)

theorem SpecAux_iff (c : SolutionChecker) :
    ∀ (slides : List (List Int)) (used : List Int),
      SpecAux c used slides ↔
        ((∀ s ∈ slides, s.length = 1 ∨ s.length = 2) ∧
          slides.flatten.Nodup ∧
          (∀ pid ∈ slides.flatten, pid ∉ used) ∧
          (∀ pid ∈ slides.flatten, (c.find pid).isSome) ∧
          (∀ s ∈ slides, s.length = 1 → c.isHoriz (s.getD 0 0) = true) ∧
          (∀ s ∈ slides, s.length = 2 →
            c.isHoriz (s.getD 0 0) = false ∧ c.isHoriz (s.getD 1 0) = false)) := by
  intro slides
  induction slides with
  | nil => intro used; simp [SpecAux]
  | cons s rest ih =>
    intro used
    simp only [SpecAux]
    rw [ih (s.reverse ++ used)]
    constructor
    · rintro ⟨hsz, hnd, hfresh, hknown, hsingle, hpair,
        rsz, rnd, rfresh, rknown, rsingle, rpair⟩
      refine ⟨?_, ?_, ?_, ?_, ?_, ?_⟩
      · intro t ht
        rcases List.mem_cons.1 ht with rfl | ht
        · exact hsz
        · exact rsz t ht
      · rw [List.flatten_cons, List.nodup_append]
        refine ⟨hnd, rnd, ?_⟩
        intro a ha hafl
        exact (rfresh a hafl) (List.mem_append_left _ (List.mem_reverse.2 ha))
      · intro pid hpid
        rw [List.flatten_cons, List.mem_append] at hpid
        rcases hpid with hpid | hpid
        · exact hfresh pid hpid
        · intro hu
          exact (rfresh pid hpid) (List.mem_append_right _ hu)
      · intro pid hpid
        rw [List.flatten_cons, List.mem_append] at hpid
        rcases hpid with hpid | hpid
        · exact hknown pid hpid
        · exact rknown pid hpid
      · intro t ht
        rcases List.mem_cons.1 ht with rfl | ht
        · exact hsingle
        · exact rsingle t ht
      · intro t ht
        rcases List.mem_cons.1 ht with rfl | ht
        · exact hpair
        · exact rpair t ht
    · rintro ⟨hsz, hnd, hfresh, hknown, hsingle, hpair⟩
      rw [List.flatten_cons, List.nodup_append] at hnd
      obtain ⟨hnds, hndr, hdisj⟩ := hnd
      refine ⟨hsz s (List.mem_cons_self _ _), hnds,
        fun pid hp => hfresh pid (List.flatten_cons .. ▸ List.mem_append_left _ hp),
        fun pid hp => hknown pid (List.flatten_cons .. ▸ List.mem_append_left _ hp),
        hsingle s (List.mem_cons_self _ _), hpair s (List.mem_cons_self _ _),
        ?_, hndr, ?_, ?_, ?_, ?_⟩
      · intro t ht
        exact hsz t (List.mem_cons_of_mem _ ht)
      · intro pid hp
        rw [List.mem_append]
        rintro (hrev | hused)
        · exact hdisj (List.mem_reverse.1 hrev) hp
        · exact hfresh pid (List.flatten_cons .. ▸ List.mem_append_right _ hp) hused
      · intro pid hp
        exact hknown pid (List.flatten_cons .. ▸ List.mem_append_right _ hp)
      · intro t ht
        exact hsingle t (List.mem_cons_of_mem _ ht)
      · intro t ht
        exact hpair t (List.mem_cons_of_mem _ ht)

/-- `is_valid_solution` succeeds exactly on the flat feasibility predicate
(shared helper for several claims). -/
theorem is_valid_solution_iff_spec (c : SolutionChecker) (slides : List (List Int)) :
    c.is_valid_solution slides = none ↔ ValidSolutionSpec c slides := by
  unfold SolutionChecker.is_valid_solution ValidSolutionSpec
  rw [checkSlides_eq_none_iff c slides [] 0, SpecAux_iff c slides []]
  simp

/-- C3 (amended): `is_valid_solution` returns Ok exactly when every slide has
1 or 2 members, no id occurs more than once across all slide member positions
(a duplicate inside one slide also counts), every referenced id is in the
catalog, every single-member slide holds a horizontal item, and every
two-member slide holds only vertical items. -/
theorem validator_ok_iff (c : SolutionChecker) (slides : List (List Int)) :
    c.is_valid_solution slides = none ↔ ValidSolutionSpec c slides :=
  is_valid_solution_iff_spec c slides

/-- Witness for C3's amended iff at a concrete valid sequence. -/
theorem validator_ok_iff_witness :
    ValidSolutionSpec (SolutionChecker.mk [⟨0, true, ∅⟩, ⟨1, false, ∅⟩, ⟨2, false, ∅⟩])
      [[0], [1, 2]] :=
  (validator_ok_iff _ _).1 (by decide)

/-- The feasibility conditions exactly as claim C3 words them: slide sizes
1 or 2; *no item id appears in more than one slide overall* (pairwise
disjointness of slides, saying nothing about a duplicate within one slide);
single slides hold a Wide item; two-member slides hold only Narrow items. -/
def ClaimedValidSpec (c : SolutionChecker) (slides : List (List Int)) : Prop :=
  (∀ s ∈ slides, s.length = 1 ∨ s.length = 2) ∧
    List.Pairwise (fun s t => ∀ pid ∈ s, pid ∉ t) slides ∧
    (∀ s ∈ slides, s.length = 1 →
      ∃ p, c.find (s.getD 0 0) = some p ∧ p.is_horizontal = true) ∧
    (∀ s ∈ slides, s.length = 2 →
      ∀ pid ∈ s, ∃ p, c.find pid = some p ∧ p.is_horizontal = false)

/-- Counterexample to C3 as stated: with a single narrow photo 0, the sequence
`[[0, 0]]` satisfies the claim's conditions (no id is in more than one slide,
and the one pair slide holds only narrow items), yet `is_valid_solution`
rejects it — the code's reuse check also fires on a duplicate within a single
slide, and its violation carries the photo id, not a slide index. -/
theorem validator_claimC3_counterexample :
    ¬((SolutionChecker.mk [⟨0, false, ∅⟩]).is_valid_solution [[0, 0]] = none ↔
      ClaimedValidSpec (SolutionChecker.mk [⟨0, false, ∅⟩]) [[0, 0]]) := by
  intro h
  have hspec : ClaimedValidSpec (SolutionChecker.mk [⟨0, false, ∅⟩]) [[0, 0]] := by
    refine ⟨by decide, ?_, ?_, ?_⟩
    · simp
    · intro s hs h1
      rw [List.mem_singleton] at hs
      subst hs
      simp at h1
    · intro s hs h2 pid hp
      rw [List.mem_singleton] at hs
      subst hs
      have hpid : pid = 0 := by
        rcases List.mem_cons.1 hp with rfl | hp
        · rfl
        · rcases List.mem_cons.1 hp with rfl | hp
          · rfl
          · simp at hp
      subst hpid
      exact ⟨⟨0, false, ∅⟩, by decide, rfl⟩
  exact absurd (h.2 hspec) (by decide)

theorem checkIds_first_unknown (c : SolutionChecker) :
    ∀ (s used : List Int) (pid : Int), (∀ q ∈ s, q ∉ used) → s.Nodup →
      s.find? (fun q => (c.find q).isNone) = some pid →
      checkIds c used s = .error (.unknownId pid) := by
  intro s
  induction s with
  | nil =>
    intro used pid _ _ h
    simp at h
  | cons q rest ih =>
    intro used pid hfresh hnd hfind
    simp only [checkIds]
    rw [if_neg (hfresh q (List.mem_cons_self _ _))]
    by_cases hq : (c.find q).isNone = true
    · rw [if_pos hq]
      simp only [List.find?, hq] at hfind
      injection hfind with h
      rw [h]
    · rw [if_neg hq]
      have hqf : (c.find q).isNone = false := by
        revert hq
        cases (c.find q).isNone <;> simp
      simp only [List.find?, hqf] at hfind
      apply ih (q :: used) pid ?_ (List.nodup_cons.1 hnd).2 hfind
      intro r hr
      rw [List.mem_cons]
      rintro (rfl | hru)
      · exact (List.nodup_cons.1 hnd).1 hr
      · exact hfresh r (List.mem_cons_of_mem _ hr) hru

/-- C9: a sequence referencing an id outside the catalog is always rejected;
and on a single well-sized slide without duplicates, the violation returned is
`unknownId` for the first unknown id — reported before any orientation check
of that slide is reached. -/
theorem validator_rejects_unknown_id (c : SolutionChecker) :
    (∀ slides : List (List Int), (∃ s ∈ slides, ∃ pid ∈ s, c.find pid = none) →
        c.is_valid_solution slides ≠ none) ∧
      (∀ (s : List Int) (pid : Int), (s.length = 1 ∨ s.length = 2) → s.Nodup →
        s.find? (fun q => (c.find q).isNone) = some pid →
        c.is_valid_solution [s] = some (.unknownId pid)) := by
  constructor
  · intro slides h hok
    rw [is_valid_solution_iff_spec] at hok
    obtain ⟨s, hs, pid, hpid, hnone⟩ := h
    have := hok.2.2.1 pid (List.mem_flatten.2 ⟨s, hs, hpid⟩)
    rw [hnone] at this
    simp at this
  · intro s pid hsz hnd hfind
    unfold SolutionChecker.is_valid_solution
    simp only [checkSlides]
    rw [if_neg (not_not_intro hsz),
      checkIds_first_unknown c s [] pid (by simp) hnd hfind]

/-- Witness for C9: id 5 is not in a catalog holding only photo 0. -/
theorem validator_rejects_unknown_id_witness :
    (SolutionChecker.mk [⟨0, true, ∅⟩]).is_valid_solution [[5]] =
      some (.unknownId 5) :=
  (validator_rejects_unknown_id _).2 [5] 5 (by decide) (by decide) (by decide)

/-! ## Catalog readers: agreement and failure characterization -/

theorem pySlice_exact (t0 t1 : Tok) (rest : List Tok) :
    pySlice (t0 :: t1 :: rest) 2 (2 + (rest.length : Int)) = rest := by
  have hlen : (t0 :: t1 :: rest).length = rest.length + 2 := by simp
  have h1 : pySliceIdx (t0 :: t1 :: rest).length (2 + (rest.length : Int)) =
      rest.length + 2 := by
    unfold pySliceIdx
    rw [if_neg (by omega), hlen]
    omega
  have h2 : pySliceIdx (t0 :: t1 :: rest).length 2 = 2 := by
    unfold pySliceIdx
    rw [if_neg (by omega), hlen]
    omega
  unfold pySlice
  rw [h1, h2, List.take_of_length_le (by rw [hlen])]
  rfl

theorem readPhoto_eq_V (line : List Char) (i : Nat)
    (h : ∃ t0 t1 rest, pySplit line = t0 :: t1 :: rest ∧
      pyInt t1 = some (rest.length : Int)) :
    readPhoto line i = readPhotoV line i := by
  obtain ⟨t0, t1, rest, hsplit, hint⟩ := h
  unfold readPhoto readPhotoV
  rw [hsplit]
  dsimp only
  rw [hint]
  dsimp only
  rw [pySlice_exact]
  rfl

theorem readPhotos_eq_V (file : List (List Char)) :
    ∀ (count i : Nat),
      (∀ k, k < count → ∃ t0 t1 rest,
        pySplit (file.getD (i + k + 1) []) = t0 :: t1 :: rest ∧
        pyInt t1 = some (rest.length : Int)) →
      readPhotos file i count = readPhotosV file i count := by
  intro count
  induction count with
  | zero => intro i _; rfl
  | succ c ih =>
    intro i h
    simp only [readPhotos, readPhotosV]
    have h0 := h 0 (by omega)
    rw [Nat.add_zero] at h0
    rw [readPhoto_eq_V _ i h0, ih (i + 1) ?hshift]
    case hshift =>
      intro k hk
      have := h (k + 1) (by omega)
      rwa [show i + (k + 1) + 1 = i + 1 + k + 1 by omega] at this

/-- C4 (amended): the optimizer's reader (`read_input`, trusting the declared
tag count) and the verifier's reader (`read_input_file`, consuming all
remaining tokens) agree on every catalog file in which each record's declared
tag count is an integer equal to the number of remaining tokens.  The
condition is sufficient, not necessary: `read_input`'s slice clamps, so the
readers can also coincide on some mismatched counts (e.g. `V 2 a`). -/
theorem readers_agree (file : List (List Char))
    (h : ∀ n : Int, pyInt (file.getD 0 []) = some n →
      ∀ k < n.toNat, ∃ t0 t1 rest,
        pySplit (file.getD (k + 1) []) = t0 :: t1 :: rest ∧
        pyInt t1 = some (rest.length : Int)) :
    read_input file = SolutionChecker.read_input_file file := by
  unfold read_input SolutionChecker.read_input_file
  cases hn : pyInt (file.getD 0 []) with
  | none => rfl
  | some n =>
    refine readPhotos_eq_V file n.toNat 0 (fun k hk => ?_)
    have := h n hn k hk
    rwa [show k + 1 = 0 + k + 1 by omega] at this

/-- Witness for C4's amended agreement at a concrete exact-count file. -/
theorem readers_agree_witness :
    read_input [['1'], ['H', ' ', '1', ' ', 'a']] =
      SolutionChecker.read_input_file [['1'], ['H', ' ', '1', ' ', 'a']] := by
  refine readers_agree _ ?_
  intro n hn k hk
  have h1 : pyInt [('1' : Char)] = some 1 := by decide
  have hn2 : pyInt [('1' : Char)] = some n := hn
  rw [h1] at hn2
  injection hn2 with hn3
  rw [← hn3] at hk
  have hk0 : k = 0 := by omega
  subst hk0
  exact ⟨['H'], ['1'], [['a']], by decide, by decide⟩

instance {ε α : Type _} [DecidableEq ε] [DecidableEq α] : DecidableEq (Except ε α) := fun
  | .ok a, .ok b =>
    decidable_of_iff (a = b) (by
      constructor
      · rintro rfl; rfl
      · intro h; injection h)
  | .ok _, .error _ => isFalse (fun h => Except.noConfusion h)
  | .error _, .ok _ => isFalse (fun h => Except.noConfusion h)
  | .error e, .error f =>
    decidable_of_iff (e = f) (by
      constructor
      · rintro rfl; rfl
      · intro h; injection h)

/-- Counterexample to C4 as stated: on the record `H 1 a b` (declared tag
count 1, two tag tokens) the optimizer's reader keeps `{a}` while the
verifier's reader keeps `{a, b}` — the two readers are not equivalent. -/
theorem readers_disagree_counterexample :
    read_input [['1'], ['H', ' ', '1', ' ', 'a', ' ', 'b']] ≠
      SolutionChecker.read_input_file [['1'], ['H', ' ', '1', ' ', 'a', ' ', 'b']] := by
  decide

/-- Counterexample to C5 as stated: the catalog file `1⏎X 5 a` has an
orientation token that is neither `H` nor `V` and a declared tag count (5)
that does not match the single tag token present, yet `read_input` succeeds,
silently reading the item as Narrow with tags `{a}`. -/
theorem read_input_accepts_malformed :
    read_input [['1'], ['X', ' ', '5', ' ', 'a']] = .ok [⟨0, false, {['a']}⟩] := by
  decide

theorem readPhoto_ok_iff (line : List Char) (i : Nat) :
    (∃ p, readPhoto line i = .ok p) ↔
      ∃ t0 t1 rest, pySplit line = t0 :: t1 :: rest ∧ (pyInt t1).isSome := by
  unfold readPhoto
  cases hs : pySplit line with
  | nil =>
    dsimp only
    constructor
    · rintro ⟨p, hp⟩
      exact Except.noConfusion hp
    · rintro ⟨t0, t1, rest, h, -⟩
      exact List.noConfusion h
  | cons t0 ts =>
    cases ts with
    | nil =>
      dsimp only
      constructor
      · rintro ⟨p, hp⟩
        exact Except.noConfusion hp
      · rintro ⟨a, b, rest, h, -⟩
        injection h with h1 h2
        exact List.noConfusion h2
    | cons t1 rest =>
      dsimp only
      cases hi : pyInt t1 with
      | none =>
        constructor
        · rintro ⟨p, hp⟩
          exact Except.noConfusion hp
        · rintro ⟨a, b, c, heq, hsome⟩
          injection heq with h1 h2
          injection h2 with h2 h3
          rw [← h2, hi] at hsome
          simp at hsome
      | some n =>
        constructor
        · intro _
          exact ⟨t0, t1, rest, rfl, by rw [hi]; rfl⟩
        · intro _
          exact ⟨_, rfl⟩

theorem readPhotos_ok_iff (file : List (List Char)) :
    ∀ (count i : Nat),
      (∃ ps, readPhotos file i count = .ok ps) ↔
        (∀ k < count, ∃ t0 t1 rest,
          pySplit (file.getD (i + k + 1) []) = t0 :: t1 :: rest ∧ (pyInt t1).isSome) := by
  intro count
  induction count with
  | zero =>
    intro i
    constructor
    · intro _ k hk
      omega
    · intro _
      exact ⟨[], rfl⟩
  | succ c ih =>
    intro i
    constructor
    · rintro ⟨ps, hps⟩ k hk
      simp only [readPhotos] at hps
      cases hp : readPhoto (file.getD (i + 1) []) i with
      | error e =>
        rw [hp] at hps
        exact Except.noConfusion hps
      | ok p =>
        rw [hp] at hps
        cases hr : readPhotos file (i + 1) c with
        | error e =>
          rw [hr] at hps
          exact Except.noConfusion hps
        | ok ps' =>
          match k with
          | 0 =>
            rw [Nat.add_zero]
            exact (readPhoto_ok_iff _ i).1 ⟨p, hp⟩
          | k' + 1 =>
            have := (ih (i + 1)).1 ⟨ps', hr⟩ k' (by omega)
            rwa [show i + 1 + k' + 1 = i + (k' + 1) + 1 by omega] at this
    · intro h
      have h0 := h 0 (by omega)
      rw [Nat.add_zero] at h0
      obtain ⟨p, hp⟩ := (readPhoto_ok_iff (file.getD (i + 1) []) i).2 h0
      obtain ⟨ps', hr⟩ := (ih (i + 1)).2 (fun k hk => by
        have := h (k + 1) (by omega)
        rwa [show i + (k + 1) + 1 = i + 1 + k + 1 by omega] at this)
      refine ⟨p :: ps', ?_⟩
      simp only [readPhotos]
      rw [hp, hr]
      rfl

/-- C5 (amended): `read_input` succeeds exactly when the first line parses as
an integer `n` and each of the first `n.toNat` record lines has at least two
tokens whose second token parses as an integer.  In particular the reader
does not fail on an unrecognized orientation token (anything other than `H`
is read as Narrow), on a declared tag count that mismatches the tokens
present (the slice is silently clamped), or on extra records beyond the
declared count (they are ignored) — such input is silently repaired. -/
theorem read_input_ok_iff (file : List (List Char)) :
    (∃ ps, read_input file = .ok ps) ↔
      ∃ n : Int, pyInt (file.getD 0 []) = some n ∧
        ∀ k < n.toNat, ∃ t0 t1 rest,
          pySplit (file.getD (k + 1) []) = t0 :: t1 :: rest ∧ (pyInt t1).isSome := by
  unfold read_input
  cases hn : pyInt (file.getD 0 []) with
  | none =>
    constructor
    · rintro ⟨ps, hps⟩
      exact Except.noConfusion hps
    · rintro ⟨n, hn2, -⟩
      exact Option.noConfusion hn2
  | some n =>
    constructor
    · rintro ⟨ps, hps⟩
      refine ⟨n, rfl, fun k hk => ?_⟩
      have := (readPhotos_ok_iff file n.toNat 0).1 ⟨ps, hps⟩ k hk
      rwa [show 0 + k + 1 = k + 1 by omega] at this
    · rintro ⟨n', hn2, h⟩
      injection hn2 with hn3
      rw [← hn3] at h
      dsimp only
      exact (readPhotos_ok_iff file n.toNat 0).2 (fun k hk => by
        have := h k hk
        rwa [show k + 1 = 0 + k + 1 by omega] at this)

/-- Witness for C5's amended characterization, applied to the malformed file
`1⏎X 5 a` that the original claim says must be rejected. -/
theorem read_input_ok_iff_witness :
    ∃ n : Int, pyInt ([['1'], ['X', ' ', '5', ' ', 'a']].getD 0 []) = some n ∧
      ∀ k < n.toNat, ∃ t0 t1 rest,
        pySplit ([['1'], ['X', ' ', '5', ' ', 'a']].getD (k + 1) []) =
          t0 :: t1 :: rest ∧ (pyInt t1).isSome :=
  (read_input_ok_iff _).1 ⟨[⟨0, false, {['a']}⟩], by decide⟩

/-- Witness for C7 at a concrete two-slide sequence. -/
theorem read_write_roundtrip_witness :
    SolutionChecker.read_solution_file (writeSolution [[0], [1, 2]]) = .ok [[0], [1, 2]] :=
  read_write_roundtrip [[0], [1, 2]] (by decide)

/-! ## `PhotoSlideshowOptimizer.__init__` precomputation -/

/-- `self.horizontal_photos = [p.id for p in photos if p.is_horizontal]`. -/
def horizontal_photos (photos : List Photo) : List Int :=
  (photos.filter (fun p => p.is_horizontal)).map Photo.id

/-- `self.vertical_photos = [p.id for p in photos if not p.is_horizontal]`. -/
def vertical_photos (photos : List Photo) : List Int :=
  (photos.filter (fun p => !p.is_horizontal)).map Photo.id

/-- `itertools.combinations(l, 2)` in generation order. -/
def combinations2 : List α → List (α × α)
  | [] => []
  | x :: xs => xs.map (fun y => (x, y)) ++ combinations2 xs

/-- `self.vertical_pairs`, built by `itertools.combinations(vertical, 2)`. -/
def vertical_pairs (photos : List Photo) : List (Int × Int) :=
  combinations2 (vertical_photos photos)

/-- Python list indexing `photos[i]` (a negative index counts from the end);
`none` models `IndexError`. -/
def pyIndex (l : List α) (i : Int) : Option α :=
  if 0 ≤ i then l[i.toNat]?
  else if i.natAbs ≤ l.length then l[l.length - i.natAbs]?
  else none

/-- `self.vertical_pair_tags[(i, j)] = photos[i].tags.union(photos[j].tags)`. -/
def vertical_pair_tags (photos : List Photo) (pr : Int × Int) : Option (Finset Tok) := do
  let p ← pyIndex photos pr.1
  let q ← pyIndex photos pr.2
  pure (p.tags ∪ q.tags)

theorem mem_combinations2 {l : List α} {p : α × α} :
    p ∈ combinations2 l ↔ [p.1, p.2].Sublist l := by
  induction l with
  | nil => simp [combinations2]
  | cons x xs ih =>
    simp only [combinations2, List.mem_append, List.mem_map, ih]
    constructor
    · rintro (⟨y, hy, rfl⟩ | h)
      · exact (List.singleton_sublist.2 hy).cons₂ _
      · exact h.cons x
    · intro h
      cases h with
      | cons _ h' => exact Or.inr h'
      | cons₂ _ h' => exact Or.inl ⟨p.2, List.singleton_sublist.1 h', Prod.mk.eta⟩

theorem combinations2_nodup {l : List α} (h : l.Nodup) : (combinations2 l).Nodup := by
  induction l with
  | nil => exact List.nodup_nil
  | cons x xs ih =>
    obtain ⟨hx, hxs⟩ := List.nodup_cons.1 h
    rw [combinations2, List.nodup_append]
    refine ⟨?_, ih hxs, ?_⟩
    · exact hxs.map (fun a b hab => by injection hab)
    · intro a ha hb
      obtain ⟨y, hy, rfl⟩ := List.mem_map.1 ha
      have hsub := mem_combinations2.1 hb
      exact hx (hsub.subset (List.mem_cons_self _ _))

theorem combinations2_complete {l : List α} {a b : α} (ha : a ∈ l) (hb : b ∈ l)
    (hne : a ≠ b) :
    (a, b) ∈ combinations2 l ∨ (b, a) ∈ combinations2 l := by
  induction l with
  | nil => simp at ha
  | cons x xs ih =>
    rcases List.mem_cons.1 ha with rfl | ha'
    · have hbxs : b ∈ xs := by
        rcases List.mem_cons.1 hb with h | h
        · exact absurd h.symm hne
        · exact h
      left
      rw [combinations2]
      exact List.mem_append_left _ (List.mem_map.2 ⟨b, hbxs, rfl⟩)
    · rcases List.mem_cons.1 hb with rfl | hb'
      · right
        rw [combinations2]
        exact List.mem_append_left _ (List.mem_map.2 ⟨a, ha', rfl⟩)
      · rcases ih ha' hb' with h | h
        · left
          rw [combinations2]
          exact List.mem_append_right _ h
        · right
          rw [combinations2]
          exact List.mem_append_right _ h

theorem sublist_pair_asymm :
    ∀ (l : List α), l.Nodup → ∀ (a b : α), a ≠ b →
      [a, b].Sublist l → [b, a].Sublist l → False := by
  intro l
  induction l with
  | nil =>
    intro _ a b _ h _
    exact absurd h (by simp)
  | cons x xs ih =>
    intro hnd a b hne h1 h2
    obtain ⟨hx, hxs⟩ := List.nodup_cons.1 hnd
    cases h1 with
    | cons _ h1' =>
      cases h2 with
      | cons _ h2' => exact ih hxs a b hne h1' h2'
      | cons₂ _ h2' => exact hx (h1'.subset (by simp))
    | cons₂ _ h1' =>
      cases h2 with
      | cons _ h2' => exact hx (h2'.subset (by simp))
      | cons₂ _ h2' => exact hne rfl

theorem vertical_photos_nodup (photos : List Photo)
    (hids : photos.map Photo.id = (List.range photos.length).map Int.ofNat) :
    (vertical_photos photos).Nodup := by
  have hmap : (photos.map Photo.id).Nodup := by
    rw [hids]
    exact (List.nodup_range ..).map (fun a b hab => by injection hab)
  exact hmap.sublist ((List.filter_sublist photos).map Photo.id)

theorem photo_id_is_index (photos : List Photo)
    (hids : photos.map Photo.id = (List.range photos.length).map Int.ofNat)
    {p : Photo} (hp : p ∈ photos) :
    ∃ k : Nat, k < photos.length ∧ p.id = (k : Int) ∧ photos[k]? = some p := by
  obtain ⟨k, hk, hget⟩ := List.mem_iff_getElem.1 hp
  refine ⟨k, hk, ?_, by rw [List.getElem?_eq_getElem hk, hget]⟩
  have h1 : (photos.map Photo.id)[k]? = some p.id := by
    rw [List.getElem?_map, List.getElem?_eq_getElem hk, hget]
    rfl
  rw [hids, List.getElem?_map] at h1
  have h2 : (List.range photos.length)[k]? = some k := by simp [hk]
  rw [h2] at h1
  injection h1 with h1
  exact h1.symm

theorem pyIndex_of_id (photos : List Photo)
    (hids : photos.map Photo.id = (List.range photos.length).map Int.ofNat)
    {p : Photo} (hp : p ∈ photos) :
    pyIndex photos p.id = some p := by
  obtain ⟨k, hk, hid, hget⟩ := photo_id_is_index photos hids hp
  rw [hid]
  unfold pyIndex
  rw [if_pos (by omega)]
  exact hget

theorem mem_vertical_photos {photos : List Photo} {a : Int} :
    a ∈ vertical_photos photos ↔
      ∃ p ∈ photos, p.is_horizontal = false ∧ p.id = a := by
  unfold vertical_photos
  constructor
  · intro h
    obtain ⟨p, hp, hid⟩ := List.mem_map.1 h
    obtain ⟨hmem, hfil⟩ := List.mem_filter.1 hp
    refine ⟨p, hmem, ?_, hid⟩
    revert hfil
    cases p.is_horizontal <;> simp
  · rintro ⟨p, hmem, hfil, hid⟩
    exact List.mem_map.2 ⟨p, List.mem_filter.2 ⟨hmem, by rw [hfil]; rfl⟩, hid⟩

theorem mem_horizontal_photos {photos : List Photo} {a : Int} :
    a ∈ horizontal_photos photos ↔
      ∃ p ∈ photos, p.is_horizontal = true ∧ p.id = a := by
  unfold horizontal_photos
  constructor
  · intro h
    obtain ⟨p, hp, hid⟩ := List.mem_map.1 h
    obtain ⟨hmem, hfil⟩ := List.mem_filter.1 hp
    exact ⟨p, hmem, by simpa using hfil, hid⟩
  · rintro ⟨p, hmem, hfil, hid⟩
    exact List.mem_map.2 ⟨p, List.mem_filter.2 ⟨hmem, by rw [hfil]⟩, hid⟩

/-- C8: over a catalog whose ids are `0..n-1` in input order (as `read_input`
assigns them), `vertical_pairs` lists every unordered pair of distinct
vertical photos exactly once — no self-pairs, no duplicate in either order —
and the combined tag set stored for a pair is the union of the two members'
tag sets. -/
theorem vertical_pairs_spec (photos : List Photo)
    (hids : photos.map Photo.id = (List.range photos.length).map Int.ofNat) :
    (vertical_pairs photos).Nodup ∧
      (∀ pr ∈ vertical_pairs photos,
        pr.1 ≠ pr.2 ∧ (pr.2, pr.1) ∉ vertical_pairs photos) ∧
      (∀ a b : Int, a ∈ vertical_photos photos → b ∈ vertical_photos photos →
        a ≠ b →
        ((a, b) ∈ vertical_pairs photos ∨ (b, a) ∈ vertical_pairs photos)) ∧
      (∀ pr ∈ vertical_pairs photos, ∃ p q,
        pyIndex photos pr.1 = some p ∧ pyIndex photos pr.2 = some q ∧
        p.is_horizontal = false ∧ q.is_horizontal = false ∧
        vertical_pair_tags photos pr = some (p.tags ∪ q.tags)) := by
  have hvnd := vertical_photos_nodup photos hids
  refine ⟨combinations2_nodup hvnd, ?_, ?_, ?_⟩
  · intro pr hpr
    have hsub := mem_combinations2.1 hpr
    have hnd2 : [pr.1, pr.2].Nodup := hvnd.sublist hsub
    have hne : pr.1 ≠ pr.2 := by
      intro he
      rw [he] at hnd2
      simp at hnd2
    refine ⟨hne, fun hq => ?_⟩
    exact sublist_pair_asymm _ hvnd pr.1 pr.2 hne hsub (mem_combinations2.1 hq)
  · intro a b ha hb hne
    exact combinations2_complete ha hb hne
  · intro pr hpr
    have hsub := mem_combinations2.1 hpr
    have h1 : pr.1 ∈ vertical_photos photos := hsub.subset (by simp)
    have h2 : pr.2 ∈ vertical_photos photos := hsub.subset (by simp)
    obtain ⟨p, hp, hph, hpid⟩ := mem_vertical_photos.1 h1
    obtain ⟨q, hq, hqh, hqid⟩ := mem_vertical_photos.1 h2
    refine ⟨p, q, ?_, ?_, hph, hqh, ?_⟩
    · rw [← hpid]
      exact pyIndex_of_id photos hids hp
    · rw [← hqid]
      exact pyIndex_of_id photos hids hq
    · unfold vertical_pair_tags
      rw [← hpid, ← hqid, pyIndex_of_id photos hids hp, pyIndex_of_id photos hids hq]
      rfl

/-- Witness for C8: the two narrow photos of a 3-item catalog are paired. -/
theorem vertical_pairs_spec_witness :
    (1, 2) ∈ vertical_pairs [⟨0, true, ∅⟩, ⟨1, false, {['x']}⟩, ⟨2, false, {['y']}⟩] ∨
      (2, 1) ∈ vertical_pairs [⟨0, true, ∅⟩, ⟨1, false, {['x']}⟩, ⟨2, false, {['y']}⟩] :=
  (vertical_pairs_spec _ (by decide)).2.2.1 1 2 (by decide) (by decide) (by decide)

/-! ## `PhotoSlideshowOptimizer.optimize` and the anytime contract -/

/-- The Gurobi termination statuses `optimize` distinguishes:
`GRB.OPTIMAL`, `GRB.TIME_LIMIT`, and everything else (infeasible,
interrupted, numeric trouble, ...). -/
inductive GRBStatus
  | optimal
  | time_limit
  | other
deriving DecidableEq

/-- A decision-variable key: a horizontal photo id, or a vertical pair. -/
abbrev UnitKey := Int ⊕ (Int × Int)

/-- What the external solver hands back: its status, the rounded values
`x[i, p].X > 0.5` of the binary variables, and the objective value
(`m.objVal`; an integer, the objective being a sum of integer scores). -/
structure SolverResult where
  status : GRBStatus
  x : UnitKey → Nat → Bool
  objVal : Int

/-- The decision-variable keys in the order the extraction loop visits them:
horizontal photos first, then vertical pairs. -/
def unitKeys (photos : List Photo) : List UnitKey :=
  (horizontal_photos photos).map Sum.inl ++ (vertical_pairs photos).map Sum.inr

/-- The slide a selected unit contributes: `[i]` or `list(pair)`. -/
def slideOf : UnitKey → List Int
  | .inl i => [i]
  | .inr pr => [pr.1, pr.2]

/-- The solution-extraction loop of `optimize`: for each
`p in range(self.n_photos)`, append `[i]` for each selected horizontal photo,
then `list(pair)` for each selected vertical pair. -/
def extract_solution (photos : List Photo) (x : UnitKey → Nat → Bool) :
    List (List Int) :=
  (List.range photos.length).flatMap (fun p =>
    ((horizontal_photos photos).filter (fun i => x (.inl i) p)).map (fun i => [i]) ++
      ((vertical_pairs photos).filter (fun pr => x (.inr pr) p)).map
        (fun pr => [pr.1, pr.2]))

/-- `PhotoSlideshowOptimizer.optimize`, resolved against a solver outcome:
on `OPTIMAL` or `TIME_LIMIT` it extracts the placed slides and returns them
with the objective value; on any other status it returns `(None, 0)`,
modelled as `none`. -/
def optimize (photos : List Photo) (res : SolverResult) :
    Option (List (List Int) × Int) :=
  if res.status = .optimal ∨ res.status = .time_limit then
    some (extract_solution photos res.x, res.objVal)
  else none

/-- The MIP constraints `optimize` imposes, read off a rounded 0/1
assignment: each position holds at most one unit; each horizontal photo is
placed at most once; each vertical photo occurs in at most one selected
(pair, position).  Any incumbent the solver returns satisfies them. -/
def FeasibleAssignment (photos : List Photo) (x : UnitKey → Nat → Bool) : Prop :=
  (∀ p < photos.length, ∀ u ∈ unitKeys photos, ∀ v ∈ unitKeys photos,
      x u p = true → x v p = true → u = v) ∧
    (∀ i ∈ horizontal_photos photos, ∀ p < photos.length, ∀ q < photos.length,
      x (.inl i) p = true → x (.inl i) q = true → p = q) ∧
    (∀ i ∈ vertical_photos photos, ∀ pr ∈ vertical_pairs photos,
      ∀ pr' ∈ vertical_pairs photos,
      (pr.1 = i ∨ pr.2 = i) → (pr'.1 = i ∨ pr'.2 = i) →
      ∀ p < photos.length, ∀ q < photos.length,
      x (.inr pr) p = true → x (.inr pr') q = true → pr = pr' ∧ p = q)

/-- Counterexample to C2 as stated: on a one-photo catalog, when the solver
stops with a status other than OPTIMAL or TIME_LIMIT (interrupted,
infeasible, ...), `optimize` returns `(None, 0)` — an absent result, not a
feasible scored sequence. -/
theorem optimize_returns_none_counterexample :
    optimize [⟨0, true, ∅⟩] ⟨.other, fun _ _ => false, 0⟩ = none := by
  rfl

theorem photos_id_map_nodup (photos : List Photo)
    (hids : photos.map Photo.id = (List.range photos.length).map Int.ofNat) :
    (photos.map Photo.id).Nodup := by
  rw [hids]
  exact (List.nodup_range ..).map (fun a b hab => by injection hab)

theorem photo_id_inj (photos : List Photo)
    (hids : photos.map Photo.id = (List.range photos.length).map Int.ofNat)
    {p q : Photo} (hp : p ∈ photos) (hq : q ∈ photos) (h : p.id = q.id) : p = q :=
  List.inj_on_of_nodup_map (photos_id_map_nodup photos hids) hp hq h

theorem find_eq_of_mem (photos : List Photo)
    (hids : photos.map Photo.id = (List.range photos.length).map Int.ofNat)
    {p : Photo} (hp : p ∈ photos) :
    (SolutionChecker.mk photos).find p.id = some p := by
  unfold SolutionChecker.find
  cases hf : photos.reverse.find? (fun q => q.id == p.id) with
  | none =>
    rw [List.find?_eq_none] at hf
    exact absurd (by simp : (p.id == p.id) = true) (hf p (List.mem_reverse.2 hp))
  | some q =>
    have hqmem : q ∈ photos := List.mem_reverse.1 (List.mem_of_find?_eq_some hf)
    have hqid : q.id = p.id := by simpa using List.find?_some hf
    rw [photo_id_inj photos hids hqmem hp hqid]

theorem isHoriz_of_mem_horizontal (photos : List Photo)
    (hids : photos.map Photo.id = (List.range photos.length).map Int.ofNat)
    {i : Int} (hi : i ∈ horizontal_photos photos) :
    (SolutionChecker.mk photos).isHoriz i = true ∧
      ((SolutionChecker.mk photos).find i).isSome := by
  obtain ⟨p, hp, hph, hid⟩ := mem_horizontal_photos.1 hi
  rw [← hid]
  unfold SolutionChecker.isHoriz
  rw [find_eq_of_mem photos hids hp]
  exact ⟨by simp [hph], rfl⟩

theorem isHoriz_of_mem_vertical (photos : List Photo)
    (hids : photos.map Photo.id = (List.range photos.length).map Int.ofNat)
    {i : Int} (hi : i ∈ vertical_photos photos) :
    (SolutionChecker.mk photos).isHoriz i = false ∧
      ((SolutionChecker.mk photos).find i).isSome := by
  obtain ⟨p, hp, hph, hid⟩ := mem_vertical_photos.1 hi
  rw [← hid]
  unfold SolutionChecker.isHoriz
  rw [find_eq_of_mem photos hids hp]
  exact ⟨by simp [hph], rfl⟩

theorem horizontal_vertical_disjoint (photos : List Photo)
    (hids : photos.map Photo.id = (List.range photos.length).map Int.ofNat)
    {i : Int} (h1 : i ∈ horizontal_photos photos)
    (h2 : i ∈ vertical_photos photos) : False := by
  obtain ⟨p, hp, hph, hpid⟩ := mem_horizontal_photos.1 h1
  obtain ⟨q, hq, hqh, hqid⟩ := mem_vertical_photos.1 h2
  have : p = q := photo_id_inj photos hids hp hq (by rw [hpid, hqid])
  rw [this, hqh] at hph
  exact Bool.noConfusion hph

theorem horizontal_photos_nodup (photos : List Photo)
    (hids : photos.map Photo.id = (List.range photos.length).map Int.ofNat) :
    (horizontal_photos photos).Nodup :=
  (photos_id_map_nodup photos hids).sublist
    ((List.filter_sublist photos).map Photo.id)

theorem unitKeys_nodup (photos : List Photo)
    (hids : photos.map Photo.id = (List.range photos.length).map Int.ofNat) :
    (unitKeys photos).Nodup := by
  unfold unitKeys
  rw [List.nodup_append]
  refine ⟨?_, ?_, ?_⟩
  · exact (horizontal_photos_nodup photos hids).map (fun a b hab => by injection hab)
  · exact (combinations2_nodup (vertical_photos_nodup photos hids)).map
      (fun a b hab => by injection hab)
  · intro u hu hv
    obtain ⟨i, -, rfl⟩ := List.mem_map.1 hu
    obtain ⟨pr, -, hpr⟩ := List.mem_map.1 hv
    exact Sum.noConfusion hpr

theorem extract_chunk_eq (photos : List Photo) (x : UnitKey → Nat → Bool) (p : Nat) :
    ((horizontal_photos photos).filter (fun i => x (.inl i) p)).map (fun i => [i]) ++
        ((vertical_pairs photos).filter (fun pr => x (.inr pr) p)).map
          (fun pr => [pr.1, pr.2]) =
      ((unitKeys photos).filter (fun u => x u p)).map slideOf := by
  unfold unitKeys
  rw [List.filter_append, List.map_append, List.filter_map, List.filter_map,
    List.map_map, List.map_map]
  rfl

theorem mem_extract_solution {photos : List Photo} {x : UnitKey → Nat → Bool}
    {s : List Int} :
    s ∈ extract_solution photos x ↔
      ∃ p < photos.length, ∃ u ∈ unitKeys photos, x u p = true ∧ s = slideOf u := by
  unfold extract_solution
  rw [List.mem_flatMap]
  constructor
  · rintro ⟨p, hp, hs⟩
    rw [extract_chunk_eq] at hs
    obtain ⟨u, hu, rfl⟩ := List.mem_map.1 hs
    obtain ⟨humem, hux⟩ := List.mem_filter.1 hu
    exact ⟨p, List.mem_range.1 hp, u, humem, by simpa using hux, rfl⟩
  · rintro ⟨p, hp, u, hu, hux, rfl⟩
    refine ⟨p, List.mem_range.2 hp, ?_⟩
    rw [extract_chunk_eq]
    exact List.mem_map.2 ⟨u, List.mem_filter.2 ⟨hu, by simpa using hux⟩, rfl⟩

theorem mem_unitKeys {photos : List Photo} {u : UnitKey} :
    u ∈ unitKeys photos ↔
      (∃ i ∈ horizontal_photos photos, u = .inl i) ∨
        (∃ pr ∈ vertical_pairs photos, u = .inr pr) := by
  unfold unitKeys
  constructor
  · intro h
    rcases List.mem_append.1 h with h | h
    · obtain ⟨i, hi, hieq⟩ := List.mem_map.1 h
      exact Or.inl ⟨i, hi, hieq.symm⟩
    · obtain ⟨pr, hpr, hpreq⟩ := List.mem_map.1 h
      exact Or.inr ⟨pr, hpr, hpreq.symm⟩
  · rintro (⟨i, hi, rfl⟩ | ⟨pr, hpr, rfl⟩)
    · exact List.mem_append_left _ (List.mem_map.2 ⟨i, hi, rfl⟩)
    · exact List.mem_append_right _ (List.mem_map.2 ⟨pr, hpr, rfl⟩)

theorem pair_components_vertical {photos : List Photo} {pr : Int × Int}
    (hpr : pr ∈ vertical_pairs photos) :
    pr.1 ∈ vertical_photos photos ∧ pr.2 ∈ vertical_photos photos := by
  have hsub := mem_combinations2.1 hpr
  exact ⟨hsub.subset (by simp), hsub.subset (by simp)⟩

theorem mem_slideOf_inl {id i : Int} : id ∈ slideOf (.inl i) ↔ id = i := by
  simp [slideOf]

theorem mem_slideOf_inr {id : Int} {pr : Int × Int} :
    id ∈ slideOf (.inr pr) ↔ id = pr.1 ∨ id = pr.2 := by
  simp [slideOf]

theorem selected_units_disjoint (photos : List Photo)
    (hids : photos.map Photo.id = (List.range photos.length).map Int.ofNat)
    {x : UnitKey → Nat → Bool} (hfeas : FeasibleAssignment photos x)
    {u v : UnitKey} (hu : u ∈ unitKeys photos) (hv : v ∈ unitKeys photos)
    {p q : Nat} (hp : p < photos.length) (hq : q < photos.length)
    (hxu : x u p = true) (hxv : x v q = true) (hneq : p ≠ q) :
    ∀ id : Int, id ∈ slideOf u → id ∈ slideOf v → False := by
  intro id hidu hidv
  rcases mem_unitKeys.1 hu with ⟨i, hi, rfl⟩ | ⟨pr, hpr, rfl⟩
  · rw [mem_slideOf_inl] at hidu
    rcases mem_unitKeys.1 hv with ⟨j, hj, rfl⟩ | ⟨pr', hpr', rfl⟩
    · rw [mem_slideOf_inl] at hidv
      rw [hidu] at hidv
      rw [← hidv] at hxv
      exact hneq (hfeas.2.1 i hi p hp q hq hxu hxv)
    · rw [mem_slideOf_inr] at hidv
      obtain ⟨hv1, hv2⟩ := pair_components_vertical hpr'
      rcases hidv with heq | heq
      · have hieq : i = pr'.1 := by rw [← hidu]; exact heq
        exact horizontal_vertical_disjoint photos hids hi (by rw [hieq]; exact hv1)
      · have hieq : i = pr'.2 := by rw [← hidu]; exact heq
        exact horizontal_vertical_disjoint photos hids hi (by rw [hieq]; exact hv2)
  · rw [mem_slideOf_inr] at hidu
    rcases mem_unitKeys.1 hv with ⟨j, hj, rfl⟩ | ⟨pr', hpr', rfl⟩
    · rw [mem_slideOf_inl] at hidv
      obtain ⟨hv1, hv2⟩ := pair_components_vertical hpr
      rcases hidu with heq | heq
      · have hjeq : j = pr.1 := by rw [← hidv]; exact heq
        exact horizontal_vertical_disjoint photos hids hj (by rw [hjeq]; exact hv1)
      · have hjeq : j = pr.2 := by rw [← hidv]; exact heq
        exact horizontal_vertical_disjoint photos hids hj (by rw [hjeq]; exact hv2)
    · rw [mem_slideOf_inr] at hidv
      have hvert : id ∈ vertical_photos photos := by
        obtain ⟨hv1, hv2⟩ := pair_components_vertical hpr
        rcases hidu with heq | heq
        · rw [heq]; exact hv1
        · rw [heq]; exact hv2
      have hcond1 : pr.1 = id ∨ pr.2 = id := by
        rcases hidu with heq | heq
        · exact Or.inl heq.symm
        · exact Or.inr heq.symm
      have hcond2 : pr'.1 = id ∨ pr'.2 = id := by
        rcases hidv with heq | heq
        · exact Or.inl heq.symm
        · exact Or.inr heq.symm
      exact hneq
        (hfeas.2.2 id hvert pr hpr pr' hpr' hcond1 hcond2 p hp q hq hxu hxv).2

theorem flatten_flatMap (l : List β) (f : β → List (List α)) :
    (l.flatMap f).flatten = l.flatMap (fun b => (f b).flatten) := by
  induction l with
  | nil => rfl
  | cons a tl ih => rw [List.flatMap_cons, List.flatMap_cons, List.flatten_append, ih]

theorem extract_flatten_nodup (photos : List Photo)
    (hids : photos.map Photo.id = (List.range photos.length).map Int.ofNat)
    {x : UnitKey → Nat → Bool} (hfeas : FeasibleAssignment photos x) :
    (extract_solution photos x).flatten.Nodup := by
  have hext : (extract_solution photos x).flatten =
      (List.range photos.length).flatMap
        (fun p => (((unitKeys photos).filter (fun u => x u p)).map slideOf).flatten) := by
    unfold extract_solution
    rw [flatten_flatMap]
    congr 1
    funext p
    rw [extract_chunk_eq]
  rw [hext, List.nodup_flatMap]
  constructor
  · intro p hp
    have hall : ∀ a ∈ (unitKeys photos).filter (fun u => x u p),
        ∀ b ∈ (unitKeys photos).filter (fun u => x u p), a = b := by
      intro a ha b hb
      obtain ⟨ham, hax⟩ := List.mem_filter.1 ha
      obtain ⟨hbm, hbx⟩ := List.mem_filter.1 hb
      exact hfeas.1 p (List.mem_range.1 hp) a ham b hbm (by simpa using hax)
        (by simpa using hbx)
    have hnd : ((unitKeys photos).filter (fun u => x u p)).Nodup :=
      (unitKeys_nodup photos hids).filter _
    cases hc : (unitKeys photos).filter (fun u => x u p) with
    | nil => simp [hc]
    | cons u tl =>
      cases tl with
      | nil =>
        have hu : u ∈ unitKeys photos :=
          (List.mem_filter.1 (hc ▸ List.mem_cons_self u [])).1
        rcases mem_unitKeys.1 hu with ⟨i, hi, rfl⟩ | ⟨pr, hpr, rfl⟩
        · simp [slideOf]
        · have hsubl := mem_combinations2.1 hpr
          have hnd2 : [pr.1, pr.2].Nodup :=
            (vertical_photos_nodup photos hids).sublist hsubl
          simpa [slideOf] using hnd2
      | cons v tl2 =>
        exfalso
        have huv : u = v :=
          hall u (hc ▸ List.mem_cons_self ..) v
            (hc ▸ List.mem_cons_of_mem _ (List.mem_cons_self ..))
        have := hc ▸ hnd
        rw [List.nodup_cons] at this
        exact this.1 (huv ▸ List.mem_cons_self ..)
  · rw [List.pairwise_iff_getElem]
    intro i j hi hj hij
    rw [List.length_range] at hi hj
    have hgi : (List.range photos.length)[i] = i := List.getElem_range ..
    have hgj : (List.range photos.length)[j] = j := List.getElem_range ..
    rw [hgi, hgj]
    intro id hidp hidq
    obtain ⟨s, hsmem, hsid⟩ := List.mem_flatten.1 hidp
    obtain ⟨u, hu, rfl⟩ := List.mem_map.1 hsmem
    obtain ⟨hum, hux⟩ := List.mem_filter.1 hu
    obtain ⟨t, htmem, htid⟩ := List.mem_flatten.1 hidq
    obtain ⟨v, hv, rfl⟩ := List.mem_map.1 htmem
    obtain ⟨hvm, hvx⟩ := List.mem_filter.1 hv
    exact selected_units_disjoint photos hids hfeas hum hvm hi hj
      (by simpa using hux) (by simpa using hvx) (by omega) id hsid htid

theorem extract_solution_valid (photos : List Photo)
    (hids : photos.map Photo.id = (List.range photos.length).map Int.ofNat)
    {x : UnitKey → Nat → Bool} (hfeas : FeasibleAssignment photos x) :
    ValidSolutionSpec (SolutionChecker.mk photos) (extract_solution photos x) := by
  refine ⟨?_, extract_flatten_nodup photos hids hfeas, ?_, ?_, ?_⟩
  · intro s hs
    obtain ⟨p, hp, u, hu, hux, rfl⟩ := mem_extract_solution.1 hs
    cases u with
    | inl i => exact Or.inl rfl
    | inr pr => exact Or.inr rfl
  · intro pid hpid
    obtain ⟨s, hsmem, hpin⟩ := List.mem_flatten.1 hpid
    obtain ⟨p, hp, u, hu, hux, rfl⟩ := mem_extract_solution.1 hsmem
    rcases mem_unitKeys.1 hu with ⟨i, hi, rfl⟩ | ⟨pr, hpr, rfl⟩
    · rw [mem_slideOf_inl] at hpin
      rw [hpin]
      exact (isHoriz_of_mem_horizontal photos hids hi).2
    · rw [mem_slideOf_inr] at hpin
      obtain ⟨hv1, hv2⟩ := pair_components_vertical hpr
      rcases hpin with rfl | rfl
      · exact (isHoriz_of_mem_vertical photos hids hv1).2
      · exact (isHoriz_of_mem_vertical photos hids hv2).2
  · intro s hs hlen
    obtain ⟨p, hp, u, hu, hux, rfl⟩ := mem_extract_solution.1 hs
    rcases mem_unitKeys.1 hu with ⟨i, hi, rfl⟩ | ⟨pr, hpr, rfl⟩
    · exact (isHoriz_of_mem_horizontal photos hids hi).1
    · exfalso
      simp [slideOf] at hlen
  · intro s hs hlen
    obtain ⟨p, hp, u, hu, hux, rfl⟩ := mem_extract_solution.1 hs
    rcases mem_unitKeys.1 hu with ⟨i, hi, rfl⟩ | ⟨pr, hpr, rfl⟩
    · exfalso
      simp [slideOf] at hlen
    · obtain ⟨hv1, hv2⟩ := pair_components_vertical hpr
      exact ⟨(isHoriz_of_mem_vertical photos hids hv1).1,
        (isHoriz_of_mem_vertical photos hids hv2).1⟩

/-- C2 (amended): when the solver reports OPTIMAL or TIME_LIMIT together with
an incumbent assignment satisfying the model's constraints, `optimize`
returns the extracted sequence (with the reported objective value) and that
sequence satisfies the verifier's feasibility invariant; on any other solver
status `optimize` returns no sequence at all (`(None, 0)` in the source). -/
theorem optimize_extract_valid (photos : List Photo) (res : SolverResult)
    (hids : photos.map Photo.id = (List.range photos.length).map Int.ofNat)
    (hfeas : FeasibleAssignment photos res.x) :
    (∀ sol obj, optimize photos res = some (sol, obj) →
        (SolutionChecker.mk photos).is_valid_solution sol = none) ∧
      (optimize photos res = none ↔
        ¬(res.status = .optimal ∨ res.status = .time_limit)) := by
  constructor
  · intro sol obj hsol
    unfold optimize at hsol
    by_cases hst : res.status = .optimal ∨ res.status = .time_limit
    · rw [if_pos hst] at hsol
      injection hsol with h
      injection h with h1 h2
      rw [← h1, is_valid_solution_iff_spec]
      exact extract_solution_valid photos hids hfeas
    · rw [if_neg hst] at hsol
      exact Option.noConfusion hsol
  · unfold optimize
    by_cases hst : res.status = .optimal ∨ res.status = .time_limit
    · rw [if_pos hst]
      constructor
      · intro h
        exact Option.noConfusion h
      · intro h
        exact absurd hst h
    · rw [if_neg hst]
      exact ⟨fun _ => hst, fun _ => rfl⟩

instance {p q : Prop} [dp : Decidable p] [dq : Decidable q] : Decidable (p → q) :=
  match dp with
  | isTrue hp =>
    match dq with
    | isTrue hq => isTrue (fun _ => hq)
    | isFalse hq => isFalse (fun h => hq (h hp))
  | isFalse hp => isTrue (fun h => absurd h hp)

/-- Witness for C2's amended theorem: a one-photo catalog, a TIME_LIMIT
outcome placing photo 0 at position 0; the extracted sequence passes the
verifier. -/
theorem optimize_extract_valid_witness :
    (SolutionChecker.mk [⟨0, true, ∅⟩]).is_valid_solution
        (extract_solution [⟨0, true, ∅⟩]
          (fun u p => decide (u = Sum.inl 0) && decide (p = 0))) = none :=
  (optimize_extract_valid [⟨0, true, ∅⟩]
      ⟨.time_limit, fun u p => decide (u = Sum.inl 0) && decide (p = 0), 0⟩
      (by decide) ⟨by
        intro p hp u hu v hv h1 h2
        have he : unitKeys [(⟨0, true, ∅⟩ : Photo)] = [Sum.inl 0] := rfl
        rw [he, List.mem_singleton] at hu hv
        rw [hu, hv], by
        intro i hi p hp q hq h1 h2
        have hl : ([(⟨0, true, ∅⟩ : Photo)]).length = 1 := rfl
        rw [hl] at hp hq
        omega, by
        intro i hi
        have he : vertical_photos [(⟨0, true, ∅⟩ : Photo)] = [] := rfl
        rw [he] at hi
        exact absurd hi (List.not_mem_nil i)⟩).1 _ 0 (by rfl)
